import Mathlib

set_option maxRecDepth 100000

/-
Verification of the sf-package-xml-diff tool (src/index.js).

The JavaScript source is shallowly embedded below.  Strings are modelled by
Lean `String` (a structure over `List Char`); the JavaScript string methods
used by the source (`split`, `includes`, `endsWith`, `replace`, `indexOf`,
array indexing with out-of-range access yielding `undefined`) are modelled
by executable functions whose semantics follows ECMAScript.  Fallible
operations (JavaScript `TypeError` on property access of `undefined`) are
modelled with explicit error values.
-/

/- ===================== JavaScript string primitives ===================== -/

/-- First index (if any) at which `pat` occurs as a contiguous sublist of
`l`; character-level model of JavaScript `String.prototype.indexOf` /
`includes`.  The empty pattern occurs at index 0, as in JavaScript. -/
def firstIndexOfList (pat : List Char) : List Char → Option Nat
  | [] => if pat.isPrefixOf ([] : List Char) then some 0 else none
  | c :: rest =>
    if pat.isPrefixOf (c :: rest) then some 0
    else (firstIndexOfList pat rest).map (· + 1)

/-- JavaScript `String.prototype.includes`. -/
def jsIncludes (s sub : String) : Bool :=
  (firstIndexOfList sub.data s.data).isSome

/-- JavaScript `String.prototype.endsWith`. -/
def jsEndsWith (s suffix : String) : Bool :=
  suffix.data.isSuffixOf s.data

/-- JavaScript `split` with a single-character separator: the list of
maximal separator-free runs (empty runs included), left to right. -/
def splitChar (c : Char) : List Char → List (List Char)
  | [] => [[]]
  | x :: xs =>
    if x = c then [] :: splitChar c xs
    else
      match splitChar c xs with
      | [] => [[x]]
      | h :: t => (x :: h) :: t

/-- JavaScript `split` with a multi-character separator, consuming leftmost
non-overlapping occurrences.  `fuel` bounds the recursion (structurally);
it is initialised to the length of the input, which always suffices. -/
def jsSplitStrAux (s0 : Char) (sep' : List Char) : Nat → List Char → List (List Char)
  | _, [] => [[]]
  | 0, l => [l]
  | fuel + 1, c :: rest =>
    if (s0 :: sep').isPrefixOf (c :: rest) then
      [] :: jsSplitStrAux s0 sep' fuel (rest.drop sep'.length)
    else
      match jsSplitStrAux s0 sep' fuel rest with
      | [] => [[c]]
      | h :: t => (c :: h) :: t

/-- JavaScript `String.prototype.split` (string separator). -/
def jsSplit (s sep : String) : List String :=
  match sep.data with
  | [] => s.data.map fun c => ⟨[c]⟩
  | [c] => (splitChar c s.data).map fun l => ⟨l⟩
  | c :: cs => (jsSplitStrAux c cs s.data.length s.data).map fun l => ⟨l⟩

/-- The character `$`. -/
def dollarChar : Char := '$'

/-- The character `&`. -/
def ampChar : Char := '&'

/-- The backquote character (code point 96). -/
def backquoteChar : Char := Char.ofNat 96

/-- The single-quote character (code point 39). -/
def quoteChar : Char := Char.ofNat 39

/-- ECMAScript `GetSubstitution` for a string search pattern: expansion of
the replacement-string patterns `$$`, `$&` (matched text), dollar-backquote
(text before the match) and dollar-quote (text after the match).  `$`
followed by anything else is literal (a string pattern has no capture
groups, so `$n` and angle-bracket references stay literal). -/
def substDollar (matched before after : List Char) : List Char → List Char
  | [] => []
  | c :: rest =>
    if c = dollarChar then
      match rest with
      | [] => [c]
      | d :: rest2 =>
        if d = dollarChar then dollarChar :: substDollar matched before after rest2
        else if d = ampChar then matched ++ substDollar matched before after rest2
        else if d = backquoteChar then before ++ substDollar matched before after rest2
        else if d = quoteChar then after ++ substDollar matched before after rest2
        else c :: d :: substDollar matched before after rest2
    else c :: substDollar matched before after rest

/-- JavaScript `String.prototype.replace` with a string search pattern:
replaces the first occurrence only, applying `GetSubstitution` to the
replacement string. -/
def jsReplaceJS (s pat repl : String) : String :=
  match firstIndexOfList pat.data s.data with
  | none => s
  | some i =>
    let before := s.data.take i
    let after := s.data.drop (i + pat.data.length)
    ⟨before ++ substDollar pat.data before after repl.data ++ after⟩

/-- Decides whether `c` is an ASCII letter (the regex class `[a-zA-Z]`). -/
def isAsciiLetter (c : Char) : Bool :=
  decide ((97 ≤ c.toNat ∧ c.toNat ≤ 122) ∨ (65 ≤ c.toNat ∧ c.toNat ≤ 90))

/-- The character list of `"meta.xml"`. -/
def metaTail : List Char := "meta.xml".data

/-- Does `l` have the form `letters+ ++ "-meta.xml"` with at least one
leading ASCII letter (the regex fragment `[a-zA-Z]+-meta\.xml` matched
against all of `l`)? -/
def letterHyphenMeta : List Char → Bool
  | [] => false
  | c :: rest =>
    isAsciiLetter c && (rest == '-' :: metaTail || letterHyphenMeta rest)

/-- Does `l` in its entirety match the regex `\.([a-zA-Z]+-)?meta\.xml`? -/
def metaXmlMatch : List Char → Bool
  | [] => false
  | c :: rest => c == '.' && (rest == metaTail || letterHyphenMeta rest)

/-- Leftmost start position of a match of `\.([a-zA-Z]+-)?meta\.xml$` in
`l`: the smallest index whose suffix matches the pattern in full (the `$`
anchor forces every match to extend to the end of the string). -/
def firstMetaIdx : List Char → Option Nat
  | [] => none
  | c :: rest =>
    if metaXmlMatch (c :: rest) then some 0
    else (firstMetaIdx rest).map (· + 1)

/-- JavaScript `s.replace(/\.([a-zA-Z]+-)?meta\.xml$/, "")`: strip the
leftmost (hence, because of the anchor, the only) match, if any. -/
def stripMetaXml (s : String) : String :=
  match firstMetaIdx s.data with
  | none => s
  | some i => ⟨s.data.take i⟩

/-- JavaScript `parts[parts.indexOf(folder) + 1]`: when `folder` is absent,
`indexOf` yields `-1` and the access reads `parts[0]`; an out-of-range
access yields `undefined`, modelled as `none`. -/
def jsGetAfterIdx (parts : List String) (folder : String) : Option String :=
  if parts.contains folder then parts[parts.findIdx (· == folder) + 1]?
  else parts[0]?

/- ===================== classification rule table ===================== -/

/-- A rule keyed by a marker directory and an extension suffix. -/
structure SingleRule where
  dir : String
  ext : String
  type : String
deriving DecidableEq, Repr

/-- A bundle rule keyed by a marker directory only. -/
structure BundleRule where
  dir : String
  bundle : String
  type : String
deriving DecidableEq, Repr

/-- The rule table of the source (`const mapping = {...}`). -/
structure Mapping where
  singleFiles : List SingleRule
  bundleTypes : List BundleRule
  objectChildren : List SingleRule
  folderBased : List SingleRule

/-- The classification rules, verbatim from the source. -/
def mapping : Mapping where
  singleFiles := [
    ⟨"/classes/", ".cls", "ApexClass"⟩,
    ⟨"/triggers/", ".trigger", "ApexTrigger"⟩,
    ⟨"/customMetadata/", ".md-meta.xml", "CustomMetadata"⟩,
    ⟨"/flexipages/", ".flexipage-meta.xml", "FlexiPage"⟩,
    ⟨"/objects/", ".object-meta.xml", "CustomObject"⟩,
    ⟨"/layouts/", ".layout-meta.xml", "Layout"⟩,
    ⟨"/permissionsets/", ".permissionset-meta.xml", "PermissionSet"⟩,
    ⟨"/reportTypes/", ".reportType-meta.xml", "ReportType"⟩,
    ⟨"/flows/", ".flow-meta.xml", "Flow"⟩]
  bundleTypes := [
    ⟨"/lwc/", "lwc", "LightningComponentBundle"⟩,
    ⟨"/aura/", "aura", "AuraDefinitionBundle"⟩]
  objectChildren := [
    ⟨"/fields/", ".field-meta.xml", "CustomField"⟩,
    ⟨"/fieldSets/", ".fieldSet-meta.xml", "FieldSet"⟩,
    ⟨"/validationRules/", ".validationRule-meta.xml", "ValidationRule"⟩,
    ⟨"/webLinks/", ".webLink-meta.xml", "WebLink"⟩,
    ⟨"/listViews/", ".listView-meta.xml", "ListView"⟩]
  folderBased := [
    ⟨"/dashboards/", ".dashboard-meta.xml", "Dashboard"⟩,
    ⟨"/reports/", ".report-meta.xml", "Report"⟩]

/- ===================== path classification ===================== -/

/-- A classified metadata component.  The name is optional because the
source can produce a `null`/`undefined` name for malformed paths. -/
structure MetadataRecord where
  type : String
  name : Option String
deriving DecidableEq, Repr

/-- Result of `extractObjectMemberName`: a name, the JavaScript `null`
returned on a falsy `afterObjects`, or a thrown `TypeError`. -/
inductive ObjExtract where
  | ok (s : String)
  | nullName
  | err
deriving DecidableEq, Repr

/-- `extractObjectMemberName` from the source: takes the text after the
first `/objects/` separator, splits it on `/` and joins component 0 and
component 2 with a dot, stripping the meta suffix from the latter.  When
`split("/objects/")` has no element 1, or element 1 is the empty string
(falsy), the source returns `null`; when element 2 of the inner split is
missing, `undefined.replace` throws. -/
def extractObjectMemberName (fullPath : String) : ObjExtract :=
  match (jsSplit fullPath "/objects/")[1]? with
  | none => .nullName
  | some afterObjects =>
    if afterObjects = "" then .nullName
    else
      let parts := jsSplit afterObjects "/"
      match parts[0]?, parts[2]? with
      | some objectName, some fileName => .ok (objectName ++ "." ++ stripMetaXml fileName)
      | _, _ => .err

/-- `extractFolderMemberName` from the source: drop the first four `/`
segments, strip the meta suffix from the last remaining segment, and join
with `/`.  When fewer than five segments exist the slice is empty and
`target[-1].replace` throws, modelled as `none`. -/
def extractFolderMemberName (file : String) : Option String :=
  let target := (jsSplit file "/").drop 4
  match target.getLast? with
  | none => none
  | some last => some (String.intercalate "/" (target.dropLast ++ [stripMetaXml last]))

/-- Result of `mapToMetadata`: a record, the JavaScript `null` (no rule
matched), or a thrown `TypeError`. -/
inductive MapResult where
  | ok (r : Option MetadataRecord)
  | typeError
deriving DecidableEq, Repr

/-- `mapToMetadata` from the source: try the rule categories in their fixed
order (single files, bundles, object children, folder based, static
resources); the first rule whose marker-directory and extension tests
succeed determines the result. -/
def mapToMetadata (file : String) : MapResult :=
  let parts := jsSplit file "/"
  match mapping.singleFiles.find? (fun r => jsIncludes file r.dir && jsEndsWith file r.ext) with
  | some r =>
    match parts.getLast? with
    | some last => .ok (some ⟨r.type, some (jsReplaceJS last r.ext "")⟩)
    | none => .typeError
  | none =>
    match mapping.bundleTypes.find? (fun r => jsIncludes file r.dir) with
    | some r => .ok (some ⟨r.type, jsGetAfterIdx parts r.bundle⟩)
    | none =>
      match mapping.objectChildren.find? (fun r => jsIncludes file r.dir && jsEndsWith file r.ext) with
      | some r =>
        match extractObjectMemberName file with
        | .ok s => .ok (some ⟨r.type, some s⟩)
        | .nullName => .ok (some ⟨r.type, none⟩)
        | .err => .typeError
      | none =>
        match mapping.folderBased.find? (fun r => jsIncludes file r.dir && jsEndsWith file r.ext) with
        | some r =>
          match extractFolderMemberName file with
          | some s => .ok (some ⟨r.type, some s⟩)
          | none => .typeError
        | none =>
          if jsIncludes file "/staticresources/" then
            match jsGetAfterIdx parts "staticresources" with
            | some seg => .ok (some ⟨"StaticResource", (jsSplit seg ".")[0]?⟩)
            | none => .typeError
          else .ok none

/-- Does some single-file rule match the path? -/
def matchesSingle (p : String) : Bool :=
  mapping.singleFiles.any fun r => jsIncludes p r.dir && jsEndsWith p r.ext

/-- Does some bundle rule match the path? -/
def matchesBundle (p : String) : Bool :=
  mapping.bundleTypes.any fun r => jsIncludes p r.dir

/-- Does some object-child rule match the path? -/
def matchesObj (p : String) : Bool :=
  mapping.objectChildren.any fun r => jsIncludes p r.dir && jsEndsWith p r.ext

/-- Does some folder-based rule match the path? -/
def matchesFolder (p : String) : Bool :=
  mapping.folderBased.any fun r => jsIncludes p r.dir && jsEndsWith p r.ext

/-- The malformed object-child shape on which `extractObjectMemberName`
throws: element 1 of the `/objects/` split exists and is non-empty, but the
inner split has no element 2. -/
def objBadShape (p : String) : Bool :=
  match (jsSplit p "/objects/")[1]? with
  | none => false
  | some afterObjects =>
    afterObjects != "" && ((jsSplit afterObjects "/")[2]?).isNone

/-- Is every match of the meta-suffix regex in `base ++ suf` outside of
`base`?  (Bounded, hence executable.) -/
def noMetaBefore (base suf : String) : Bool :=
  (List.range base.data.length).all fun i =>
    !metaXmlMatch ((base.data ++ suf.data).drop i)

/-- Does the string avoid the replacement-pattern escape character? -/
def dollarFree (s : String) : Bool :=
  s.data.all fun c => !(c == dollarChar)

/- ===================== aggregation and serialization ===================== -/

/-- A classified record with a definite (string) component name, the shape
that feeds the aggregator. -/
structure TypedName where
  type : String
  name : String
deriving DecidableEq, Repr

/-- JavaScript `Set.prototype.add`: insertion-ordered, deduplicating. -/
def insertName (names : List String) (n : String) : List String :=
  if n ∈ names then names else names ++ [n]

/-- One step of `groupMetadata`'s `forEach`: create the key on first
sight (JavaScript objects preserve string-key insertion order), then add
the name to the key's set. -/
def insertRecord (g : List (String × List String)) (i : TypedName) :
    List (String × List String) :=
  if g.any (fun p => p.1 == i.type) then
    g.map fun p => if p.1 == i.type then (p.1, insertName p.2 i.name) else p
  else g ++ [(i.type, [i.name])]

/-- The grouping loop of `groupMetadata`, before the per-type sort. -/
def groupMetadataRaw (items : List TypedName) : List (String × List String) :=
  items.foldl insertRecord []

/-- The character list of `s` lowercased (JavaScript `toLowerCase`,
restricted to the simple one-to-one case mapping). -/
def lowerChars (s : String) : List Char :=
  s.data.map Char.toLower

/-- Lexicographic comparison of character lists by code point. -/
def charListLe : List Char → List Char → Bool
  | [], _ => true
  | _ :: _, [] => false
  | a :: as, b :: bs =>
    if a < b then true
    else if b < a then false
    else charListLe as bs

/-- The comparator `(a, b) => a.toLowerCase().localeCompare(b.toLowerCase())`
of the source, modelled as code-point comparison of the lowercased
strings. -/
def ciLe (a b : String) : Prop :=
  charListLe (lowerChars a) (lowerChars b) = true

instance : DecidableRel ciLe := fun a b => by unfold ciLe; infer_instance

/-- The per-type sort of `groupMetadata`: JavaScript `Array.prototype.sort`
is stable, which insertion sort reproduces. -/
def jsSortCI (names : List String) : List String :=
  List.insertionSort ciLe names

/-- `groupMetadata` from the source: group by type, deduplicate names per
type, then sort each type's names case-insensitively. -/
def groupMetadata (items : List TypedName) : List (String × List String) :=
  (groupMetadataRaw items).map fun p => (p.1, jsSortCI p.2)

/-- The constant namespace-declaration opening tag of the manifest. -/
def packageOpenTag : String :=
  "<Package xmlns=\"http://soap.sforce.com/2006/04/metadata\">"

/-- `generatePackageXML` from the source: per-type blocks (members sorted
by `groupMetadata`, then the type name) in the grouping's key order,
closed by the fixed version element. -/
def generatePackageXML (grouped : List (String × List String)) : String :=
  let body := grouped.foldl
    (fun xml tb =>
      xml ++ "  <types>\n" ++
      tb.2.foldl (fun acc n => acc ++ "    <members>" ++ n ++ "</members>\n") "" ++
      "    <name>" ++ tb.1 ++ "</name>\n" ++ "  </types>\n\n")
    ("<?xml version=\"1.0\" encoding=\"UTF-8\"?>\n" ++ packageOpenTag ++ "\n")
  body ++ "  <version>63.0</version>\n</Package>\n"

/-- `updatePackageXML` from the source, as a function from the manifest
text to the patched text: replace the first occurrence of the constant
opening tag by the tag followed by a `fullName` element carrying the
change-set name (JavaScript `String.prototype.replace` semantics,
including the replacement-pattern expansion of `$`). -/
def updatePackageXML (changeSetName : String) (xml : String) : String :=
  jsReplaceJS xml packageOpenTag
    (packageOpenTag ++ "\n    <fullName>" ++ changeSetName ++ "</fullName>")

/-- The entry of a grouping for the type `t` (first entry whose key is
`t`), if any. -/
def typeEntry (g : List (String × List String)) (t : String) :
    Option (String × List String) :=
  g.find? fun p => p.1 == t

/-- The names a grouping records for the type `t` (empty when `t` is not a
key). -/
def namesAt (g : List (String × List String)) (t : String) : List String :=
  match typeEntry g t with
  | some p => p.2
  | none => []

/-- Two groupings carry the same type-to-name-set mapping: the same types
are present, and each type holds the same set of names. -/
def sameMapping (g₁ g₂ : List (String × List String)) : Prop :=
  ∀ t, (typeEntry g₁ t).isSome = (typeEntry g₂ t).isSome ∧
    ∀ n, (n ∈ namesAt g₁ t ↔ n ∈ namesAt g₂ t)

/- ===================== pipeline and cleanup ===================== -/

/-- The transient on-disk state the pipeline owns: whether the
`retrievedSource` working directory and the `package-diff.xml` manifest
exist. -/
structure Disk where
  retrievedSource : Bool
  packageDiff : Bool
deriving DecidableEq, Repr

/-- Which external stages fail in a given run. -/
structure Scenario where
  retrieveFails : Bool
  extractFails : Bool
  patchFails : Bool
  zipFails : Bool
  deployFails : Bool
deriving DecidableEq, Repr

/-- How a stage (or the whole workflow) ends: normal return, a thrown
exception, or `process.exit` (which terminates the process at once, so
pending `finally` blocks do not run). -/
inductive StageOutcome where
  | ok
  | thrown
  | exited (code : Nat)
deriving DecidableEq, Repr

/-- `deleteSources` from the source: remove the working directory and the
manifest file (removal of an absent path is a no-op). -/
def deleteSources (_ : Disk) : Disk :=
  { retrievedSource := false, packageDiff := false }

/-- `retrieveMetadata` from the source.  On a retrieval failure the catch
block logs and calls `process.exit(1)`.  In diff-only mode a successful
retrieval is followed by `deleteSources`; otherwise the retrieval
populates the working directory. -/
def retrieveMetadata (diffOnly : Bool) (retrieveFails : Bool) (d : Disk) :
    StageOutcome × Disk :=
  if retrieveFails then (.exited 1, d)
  else if diffOnly then (.ok, deleteSources d)
  else (.ok, { d with retrievedSource := true })

/-- The `try` body of `updateChangeSet`: retrieve, extract, patch, zip,
deploy, in order, stopping at the first failure.  `extractPackage`,
`updatePackageXML`, `zipPackage` and `deployPackage` signal failure by
throwing; `retrieveMetadata` exits the process instead. -/
def deployStages (sc : Scenario) (d : Disk) : StageOutcome × Disk :=
  match retrieveMetadata false sc.retrieveFails d with
  | (.exited c, d1) => (.exited c, d1)
  | (.thrown, d1) => (.thrown, d1)
  | (.ok, d1) =>
    if sc.extractFails then (.thrown, d1)
    else if sc.patchFails then (.thrown, d1)
    else if sc.zipFails then (.thrown, d1)
    else if sc.deployFails then (.thrown, d1)
    else (.ok, d1)

/-- `updateChangeSet` from the source: guard on a missing change-set name,
then run the staged `try` body; a thrown error is caught and logged and the
`finally` block runs `deleteSources`, but `process.exit` (the retrieval
failure path) terminates immediately and the `finally` block never runs. -/
def updateChangeSet (changeSetName : String) (sc : Scenario) (d : Disk) :
    StageOutcome × Disk :=
  if changeSetName = "" then (.exited 1, d)
  else
    match deployStages sc d with
    | (.exited c, d1) => (.exited c, d1)
    | (.thrown, d1) => (.ok, deleteSources d1)
    | (.ok, d1) => (.ok, deleteSources d1)

/-- The observable outcome of one `generateDiffPackage` run. -/
structure DiffRun where
  exitCode : Option Nat
  message : String
  manifest : Option String
  pipelineInvoked : Bool
deriving DecidableEq, Repr

/-- `generateDiffPackage` from the source, as a function of the changed
file list: with no changed files it prints `No changes detected` and exits
with code 0 before the classifier, aggregator or serializer run; otherwise
it classifies every file, drops the `null` records, groups and serializes.
A classification `TypeError` propagates out of `files.map`; a record whose
name is `null` would flow a non-string into the aggregator, modelled as a
distinguished erroneous outcome. -/
def generateDiffPackage (files : List String) : DiffRun :=
  if files.length = 0 then
    { exitCode := some 0, message := "No changes detected", manifest := none,
      pipelineInvoked := false }
  else
    let results := files.map mapToMetadata
    if results.any (· == MapResult.typeError) then
      { exitCode := none, message := "uncaught TypeError", manifest := none,
        pipelineInvoked := true }
    else
      let metadata := results.filterMap fun r =>
        match r with
        | .ok v => v
        | .typeError => none
      match metadata.mapM (fun r => r.name.map fun n => TypedName.mk r.type n) with
      | none =>
        { exitCode := none, message := "null component name", manifest := none,
          pipelineInvoked := true }
      | some typed =>
        { exitCode := none, message := "package-diff.xml created",
          manifest := some (generatePackageXML (groupMetadata typed)),
          pipelineInvoked := true }

/- ===================== lemmas: string primitives ===================== -/

theorem mk_data (s : String) : (⟨s.data⟩ : String) = s := by
  cases s
  rfl

theorem splitChar_ne_nil (c : Char) (l : List Char) : splitChar c l ≠ [] := by
  induction l with
  | nil => simp [splitChar]
  | cons x xs ih =>
    simp only [splitChar]
    split
    · simp
    · rcases h : splitChar c xs with _ | ⟨h1, t⟩
      · exact absurd h ih
      · simp

theorem splitChar_append (c : Char) (u v : List Char) :
    splitChar c (u ++ c :: v) = splitChar c u ++ splitChar c v := by
  induction u with
  | nil => simp [splitChar]
  | cons x xs ih =>
    rcases h : splitChar c xs with _ | ⟨h1, t⟩
    · exact absurd h (splitChar_ne_nil c xs)
    · by_cases hx : x = c
      · subst hx
        simp [splitChar, ih]
      · simp [splitChar, if_neg hx, ih, h]

theorem splitChar_of_not_mem {c : Char} {u : List Char} (h : c ∉ u) :
    splitChar c u = [u] := by
  induction u with
  | nil => rfl
  | cons x xs ih =>
    have hx : ¬x = c := fun hxc => h (by simp [hxc])
    have hxs : c ∉ xs := fun hc => h (by simp [hc])
    simp only [splitChar, if_neg hx, ih hxs]

theorem jsSplit_slash (s : String) :
    jsSplit s "/" = (splitChar '/' s.data).map fun l => ⟨l⟩ := rfl

theorem jsSplit_slash_ne_nil (s : String) : jsSplit s "/" ≠ [] := by
  rw [jsSplit_slash]
  intro h
  exact splitChar_ne_nil '/' s.data (List.map_eq_nil_iff.mp h)

theorem jsSplit_dot_ne_nil (s : String) : jsSplit s "." ≠ [] := by
  intro h
  exact splitChar_ne_nil '.' s.data (List.map_eq_nil_iff.mp h)

theorem firstIndexOfList_prefix {pat l : List Char} {i : Nat}
    (h : firstIndexOfList pat l = some i) : pat <+: l.drop i := by
  induction l generalizing i with
  | nil =>
    simp only [firstIndexOfList] at h
    split at h
    · cases h
      simpa [← List.isPrefixOf_iff_prefix]
    · cases h
  | cons c rest ih =>
    simp only [firstIndexOfList] at h
    split at h
    · cases h
      rw [← List.isPrefixOf_iff_prefix]
      assumption
    · rcases hmap : firstIndexOfList pat rest with _ | j
      · rw [hmap] at h
        cases h
      · rw [hmap] at h
        simp at h
        subst h
        simpa using ih hmap

theorem firstIndexOfList_decomp {pat l : List Char} {i : Nat}
    (h : firstIndexOfList pat l = some i) :
    l = l.take i ++ pat ++ l.drop (i + pat.length) := by
  rcases firstIndexOfList_prefix h with ⟨t, ht⟩
  have hdrop : l.drop (i + pat.length) = t := by
    rw [← List.drop_drop, ← ht, List.drop_left]
  conv_lhs => rw [← List.take_append_drop i l, ← ht]
  rw [hdrop, List.append_assoc]

theorem substDollar_eq_self {m b a l : List Char} (h : ∀ c ∈ l, c ≠ dollarChar) :
    substDollar m b a l = l := by
  induction l with
  | nil => rfl
  | cons c rest ih =>
    have hc : ¬c = dollarChar := h c (by simp)
    unfold substDollar
    rw [if_neg hc, ih fun c' hc' => h c' (by simp [hc'])]

theorem dollarFree_spec {s : String} (h : dollarFree s = true) :
    ∀ c ∈ s.data, c ≠ dollarChar := by
  simp only [dollarFree, List.all_eq_true, Bool.not_eq_eq_eq_not, Bool.not_true,
    beq_eq_false_iff_ne, ne_eq] at h
  exact h

theorem jsReplaceJS_strip (w ext : String)
    (h : firstIndexOfList ext.data (w.data ++ ext.data) = some w.data.length) :
    jsReplaceJS (w ++ ext) ext "" = w := by
  unfold jsReplaceJS
  rw [String.data_append, h]
  have hdrop : (w.data ++ ext.data).drop (w.data.length + ext.data.length) = [] := by
    rw [← List.length_append, List.drop_length]
  simp only [hdrop, List.take_left]
  have : substDollar ext.data w.data [] ("".data) = [] := rfl
  rw [this, List.append_nil, List.append_nil, mk_data]

theorem firstMetaIdx_append {base suf : List Char} (hm : metaXmlMatch suf = true)
    (hb : ∀ i, i < base.length → metaXmlMatch ((base ++ suf).drop i) = false) :
    firstMetaIdx (base ++ suf) = some base.length := by
  induction base with
  | nil =>
    cases suf with
    | nil => simp [metaXmlMatch] at hm
    | cons c r => simp [firstMetaIdx, hm]
  | cons x xs ih =>
    have h0 : metaXmlMatch (x :: (xs ++ suf)) = false := by
      simpa using hb 0 (by simp)
    have hb' : ∀ i, i < xs.length → metaXmlMatch ((xs ++ suf).drop i) = false := by
      intro i hi
      simpa using hb (i + 1) (by simp; omega)
    simp [List.cons_append, firstMetaIdx, h0, ih hb']

theorem stripMetaXml_append (base suf : String) (hm : metaXmlMatch suf.data = true)
    (hb : noMetaBefore base suf = true) : stripMetaXml (base ++ suf) = base := by
  have hb' : ∀ i, i < base.data.length →
      metaXmlMatch ((base.data ++ suf.data).drop i) = false := by
    simp only [noMetaBefore, List.all_eq_true, List.mem_range,
      Bool.not_eq_eq_eq_not, Bool.not_true] at hb
    intro i hi
    exact hb i hi
  unfold stripMetaXml
  rw [String.data_append, firstMetaIdx_append hm hb']
  show (⟨List.take base.data.length (base.data ++ suf.data)⟩ : String) = base
  rw [List.take_left, mk_data]

/- ===================== lemmas: list search helpers ===================== -/

theorem find?_eq_none_of_any_eq_false {α} {f : α → Bool} {l : List α}
    (h : l.any f = false) : l.find? f = none := by
  rw [List.find?_eq_none]
  intro x hx hf
  have htrue : l.any f = true := List.any_eq_true.mpr ⟨x, hx, hf⟩
  rw [h] at htrue
  cases htrue

theorem any_eq_true_of_find? {α} {f : α → Bool} {l : List α} {a : α}
    (h : l.find? f = some a) : l.any f = true := by
  rw [List.any_eq_true]
  exact ⟨a, List.mem_of_find?_eq_some h, List.find?_some h⟩

theorem findIdx_append_cons {a : String} {pre t : List String} (h : a ∉ pre) :
    (pre ++ a :: t).findIdx (· == a) = pre.length := by
  induction pre with
  | nil => simp [List.findIdx_cons]
  | cons x xs ih =>
    have hx : ¬(x == a) = true := by
      simp only [beq_iff_eq]
      intro he
      exact h (by simp [he])
    simp [List.findIdx_cons, hx, ih fun hm => h (by simp [hm])]

theorem findIdx_le_of_getElem? {l : List String} {i : Nat} {a : String}
    (h : l[i]? = some a) : l.findIdx (· == a) ≤ i := by
  induction l generalizing i with
  | nil => simp at h
  | cons x xs ih =>
    cases i with
    | zero =>
      simp at h
      subst h
      simp [List.findIdx_cons]
    | succ j =>
      simp only [List.getElem?_cons_succ] at h
      have hle := ih h
      cases hx : (x == a) with
      | false =>
        simp only [List.findIdx_cons, hx, cond_false]
        omega
      | true => simp [List.findIdx_cons, hx]

theorem getElem?_append_cons {α} (pre : List α) (x : α) (t : List α) :
    (pre ++ x :: t)[pre.length]? = some x := by
  induction pre with
  | nil => simp
  | cons y ys ih => simpa using ih

theorem getElem?_append_cons_succ {α} (pre : List α) (x y : α) (t : List α) :
    (pre ++ x :: y :: t)[pre.length + 1]? = some y := by
  induction pre with
  | nil => simp
  | cons z zs ih => simpa using ih

/- ===================== lemmas: the static-resource branch is safe ===================== -/

theorem jsSplit_slash_decomp {p sub : String} {i : Nat} (m : List Char)
    (hfi : firstIndexOfList sub.data p.data = some i)
    (hm : sub.data = '/' :: (m ++ ['/'])) (hnm : '/' ∉ m) :
    ∃ A B, jsSplit p "/" = A ++ (⟨m⟩ : String) :: B ∧ A ≠ [] ∧ B ≠ [] := by
  have hd := firstIndexOfList_decomp hfi
  have hd' : p.data = p.data.take i ++
      '/' :: (m ++ '/' :: p.data.drop (i + sub.data.length)) := by
    conv_lhs => rw [hd]
    rw [hm]
    simp [List.append_assoc]
  refine ⟨(splitChar '/' (p.data.take i)).map fun l => ⟨l⟩,
    (splitChar '/' (p.data.drop (i + sub.data.length))).map fun l => ⟨l⟩, ?_, by
      simpa using splitChar_ne_nil '/' (p.data.take i), by
      simpa using splitChar_ne_nil '/' (p.data.drop (i + sub.data.length))⟩
  rw [jsSplit_slash]
  conv_lhs => rw [hd']
  rw [splitChar_append, splitChar_append, splitChar_of_not_mem hnm]
  simp

theorem static_name_isSome {p : String}
    (h : jsIncludes p "/staticresources/" = true) :
    (jsGetAfterIdx (jsSplit p "/") "staticresources").isSome = true := by
  unfold jsIncludes at h
  rcases hfi : firstIndexOfList ("/staticresources/" : String).data p.data with _ | i
  · rw [hfi] at h
    simp at h
  · rcases jsSplit_slash_decomp "staticresources".data hfi (by decide) (by decide)
      with ⟨A, B, hsplit, hA, hB⟩
    rw [mk_data "staticresources"] at hsplit
    rcases List.exists_cons_of_ne_nil hB with ⟨y, B', hBeq⟩
    subst hBeq
    rw [hsplit]
    have hcont : (A ++ "staticresources" :: y :: B').contains "staticresources" = true := by
      simp
    unfold jsGetAfterIdx
    rw [if_pos hcont]
    have hidx : (A ++ "staticresources" :: y :: B').findIdx (· == "staticresources") ≤
        A.length := findIdx_le_of_getElem? (getElem?_append_cons A _ _)
    have hlen : (A ++ "staticresources" :: y :: B').findIdx (· == "staticresources") + 1 <
        (A ++ "staticresources" :: y :: B').length := by
      simp only [List.length_append, List.length_cons]
      omega
    simp [List.getElem?_eq_getElem hlen]

/- ===================== lemmas: the comparator ===================== -/

theorem charListLe_total : ∀ x y : List Char, charListLe x y = true ∨ charListLe y x = true := by
  intro x
  induction x with
  | nil => intro y; left; rfl
  | cons a as ih =>
    intro y
    cases y with
    | nil => right; rfl
    | cons b bs =>
      by_cases h1 : a < b
      · left
        unfold charListLe
        rw [if_pos h1]
      · by_cases h2 : b < a
        · right
          unfold charListLe
          rw [if_pos h2]
        · have ih' := ih bs
          unfold charListLe
          rw [if_neg h1, if_neg h2, if_neg h2, if_neg h1]
          exact ih'

theorem charListLe_trans : ∀ {x y z : List Char},
    charListLe x y = true → charListLe y z = true → charListLe x z = true := by
  intro x
  induction x with
  | nil => intro y z _ _; rfl
  | cons a as ih =>
    intro y z hxy hyz
    cases y with
    | nil => cases hxy
    | cons b bs =>
      cases z with
      | nil => cases hyz
      | cons c cs =>
        unfold charListLe at hxy hyz ⊢
        by_cases h1 : a < b
        · by_cases h2 : b < c
          · rw [if_pos (h1.trans h2)]
          · by_cases h3 : c < b
            · rw [if_neg h2, if_pos h3] at hyz
              cases hyz
            · have hbc : b = c := le_antisymm (not_lt.mp h3) (not_lt.mp h2)
              subst hbc
              rw [if_pos h1]
        · by_cases h2 : b < a
          · rw [if_neg h1, if_pos h2] at hxy
            cases hxy
          · have hab : a = b := le_antisymm (not_lt.mp h2) (not_lt.mp h1)
            subst hab
            rw [if_neg h1, if_neg h2] at hxy
            by_cases h3 : a < c
            · rw [if_pos h3]
            · by_cases h4 : c < a
              · rw [if_neg h3, if_pos h4] at hyz
                cases hyz
              · rw [if_neg h3, if_neg h4] at hyz ⊢
                exact ih hxy hyz

theorem charListLe_antisymm : ∀ {x y : List Char},
    charListLe x y = true → charListLe y x = true → x = y := by
  intro x
  induction x with
  | nil =>
    intro y _ hyx
    cases y with
    | nil => rfl
    | cons b bs => cases hyx
  | cons a as ih =>
    intro y hxy hyx
    cases y with
    | nil => cases hxy
    | cons b bs =>
      unfold charListLe at hxy hyx
      by_cases h1 : a < b
      · rw [if_neg (absurd h1 ∘ not_lt.mpr ∘ le_of_lt ∘ (absurd · (not_lt.mpr h1.le)))] at hyx
        · rw [if_pos h1] at hyx
          cases hyx
      · by_cases h2 : b < a
        · rw [if_neg h1, if_pos h2] at hxy
          cases hxy
        · have hab : a = b := le_antisymm (not_lt.mp h2) (not_lt.mp h1)
          subst hab
          rw [if_neg h1, if_neg h2] at hxy hyx
          rw [ih hxy hyx]

theorem pairwise_and_of {α} {l : List α} {R S : α → α → Prop}
    (hR : l.Pairwise R) (hS : l.Pairwise S) :
    l.Pairwise fun a b => R a b ∧ S a b := by
  induction l with
  | nil => exact List.Pairwise.nil
  | cons x xs ih =>
    rcases List.pairwise_cons.mp hR with ⟨hRx, hRxs⟩
    rcases List.pairwise_cons.mp hS with ⟨hSx, hSxs⟩
    exact List.pairwise_cons.mpr ⟨fun b hb => ⟨hRx b hb, hSx b hb⟩, ih hRxs hSxs⟩

theorem jsSortCI_eq_of_perm {ns₁ ns₂ : List String} (hp : ns₁.Perm ns₂)
    (hinj : ∀ a ∈ ns₁, ∀ b ∈ ns₁, lowerChars a = lowerChars b → a = b)
    (hnd : ns₁.Nodup) :
    jsSortCI ns₁ = jsSortCI ns₂ := by
  haveI : IsTotal String ciLe := ⟨fun a b => by
    unfold ciLe
    exact charListLe_total (lowerChars a) (lowerChars b)⟩
  haveI : IsTrans String ciLe := ⟨fun a b c hab hbc => charListLe_trans hab hbc⟩
  have hsorted : ∀ ns : List String,
      (∀ a ∈ ns, ∀ b ∈ ns, lowerChars a = lowerChars b → a = b) → ns.Nodup →
      (List.insertionSort ciLe ns).Pairwise
        fun a b => ciLe a b ∧ lowerChars a ≠ lowerChars b := by
    intro ns hinj' hnd'
    have h1 : (List.insertionSort ciLe ns).Pairwise ciLe :=
      List.sorted_insertionSort ciLe ns
    have hndSorted : (List.insertionSort ciLe ns).Nodup :=
      (List.perm_insertionSort ciLe ns).nodup_iff.mpr hnd'
    have hmem : ∀ a, a ∈ List.insertionSort ciLe ns → a ∈ ns := fun a ha =>
      (List.mem_insertionSort ciLe).mp ha
    have h2 : (List.insertionSort ciLe ns).Pairwise
        fun a b => lowerChars a ≠ lowerChars b :=
      List.Pairwise.imp_of_mem
        (fun ha hb hne heq => hne (hinj' _ (hmem _ ha) _ (hmem _ hb) heq)) hndSorted
    exact pairwise_and_of h1 h2
  haveI : IsAntisymm String fun a b => ciLe a b ∧ lowerChars a ≠ lowerChars b :=
    ⟨fun a b hab hba => absurd (charListLe_antisymm hab.1 hba.1) hab.2⟩
  have hinj₂ : ∀ a ∈ ns₂, ∀ b ∈ ns₂, lowerChars a = lowerChars b → a = b := by
    intro a ha b hb
    exact hinj a (hp.mem_iff.mpr ha) b (hp.mem_iff.mpr hb)
  have hnd₂ : ns₂.Nodup := hp.nodup_iff.mp hnd
  exact List.eq_of_perm_of_sorted
    (((List.perm_insertionSort ciLe ns₁).trans hp).trans
      (List.perm_insertionSort ciLe ns₂).symm)
    (hsorted ns₁ hinj hnd) (hsorted ns₂ hinj₂ hnd₂)

/- ===================== lemmas: grouping ===================== -/

theorem mem_insertName {s : List String} {m n : String} :
    n ∈ insertName s m ↔ n ∈ s ∨ n = m := by
  unfold insertName
  by_cases h : m ∈ s
  · rw [if_pos h]
    constructor
    · exact Or.inl
    · rintro (hn | rfl)
      · exact hn
      · exact h
  · rw [if_neg h]
    simp

theorem nodup_insertName {s : List String} {m : String} (h : s.Nodup) :
    (insertName s m).Nodup := by
  unfold insertName
  by_cases hm : m ∈ s
  · rw [if_pos hm]
    exact h
  · rw [if_neg hm]
    simp [List.nodup_append, h, hm]

theorem insertName_of_mem {s : List String} {m : String} (h : m ∈ s) :
    insertName s m = s := by
  unfold insertName
  rw [if_pos h]

theorem typeEntry_eq_some_fst {g : List (String × List String)} {t : String}
    {p : String × List String} (h : typeEntry g t = some p) : p.1 = t := by
  have := List.find?_some h
  simpa using this

theorem mem_keys_of_typeEntry {g : List (String × List String)} {t : String}
    {p : String × List String} (h : typeEntry g t = some p) :
    t ∈ g.map Prod.fst := by
  have hm := List.mem_of_find?_eq_some h
  have hf := typeEntry_eq_some_fst h
  exact hf ▸ List.mem_map.mpr ⟨p, hm, rfl⟩

theorem any_keys_iff {g : List (String × List String)} {t : String} :
    (g.any fun p => p.1 == t) = true ↔ t ∈ g.map Prod.fst := by
  rw [List.any_eq_true]
  constructor
  · rintro ⟨p, hp, he⟩
    exact List.mem_map.mpr ⟨p, hp, by simpa using he⟩
  · intro hm
    rcases List.mem_map.mp hm with ⟨p, hp, he⟩
    exact ⟨p, hp, by simp [he]⟩

theorem typeEntry_isSome_iff_mem_keys {g : List (String × List String)} {t : String} :
    (typeEntry g t).isSome = true ↔ t ∈ g.map Prod.fst := by
  constructor
  · intro h
    rcases Option.isSome_iff_exists.mp h with ⟨p, hp⟩
    exact mem_keys_of_typeEntry hp
  · intro h
    rcases List.mem_map.mp h with ⟨p, hp, he⟩
    exact List.find?_isSome.mpr ⟨p, hp, beq_iff_eq.mpr he⟩

theorem typeEntry_map_insert (g : List (String × List String)) (r : TypedName)
    (t : String) :
    typeEntry (g.map fun p => if p.1 == r.type then (p.1, insertName p.2 r.name) else p) t
      = if t = r.type then
          (typeEntry g t).map fun p => (p.1, insertName p.2 r.name)
        else typeEntry g t := by
  induction g with
  | nil => split <;> rfl
  | cons x xs ih =>
    by_cases hx : x.1 = t
    · have hpred : ((if (x.1 == r.type) = true then (x.1, insertName x.2 r.name) else x).1 == t)
          = true := by
        split <;> simp [hx]
      by_cases htr : t = r.type
      · have hxr : (x.1 == r.type) = true := by simp [hx, htr]
        unfold typeEntry
        simp [List.find?_cons, hpred, hxr, htr, hx]
      · have hxr : (x.1 == r.type) = false := by
          simp only [beq_eq_false_iff_ne, ne_eq, hx]
          exact htr
        unfold typeEntry
        simp [List.find?_cons, hpred, hxr, htr, hx]
    · have hx' : (x.1 == t) = false := by simp [hx]
      have hpred : ((if (x.1 == r.type) = true then (x.1, insertName x.2 r.name) else x).1 == t)
          = false := by
        split <;> simp [hx]
      unfold typeEntry at ih ⊢
      simp only [List.map_cons, List.find?_cons, hpred, hx', cond_false]
      exact ih

theorem find?_append_right_none {α} {f : α → Bool} {l₁ : List α} (l₂ : List α)
    (h : l₁.find? f = none) : (l₁ ++ l₂).find? f = l₂.find? f := by
  induction l₁ with
  | nil => rfl
  | cons x xs ih =>
    cases hx : f x with
    | true =>
      rw [List.find?_cons_of_pos _ hx] at h
      cases h
    | false =>
      rw [List.find?_cons_of_neg _ (by simp [hx])] at h
      simp only [List.cons_append, List.find?_cons, hx, cond_false]
      exact ih h

theorem find?_append_left {α} {f : α → Bool} {l₁ : List α} (l₂ : List α) {a : α}
    (h : l₁.find? f = some a) : (l₁ ++ l₂).find? f = some a := by
  induction l₁ with
  | nil => cases h
  | cons x xs ih =>
    cases hx : f x with
    | true =>
      rw [List.find?_cons_of_pos _ hx] at h
      simp only [List.cons_append, List.find?_cons, hx, cond_true]
      exact h
    | false =>
      rw [List.find?_cons_of_neg _ (by simp [hx])] at h
      simp only [List.cons_append, List.find?_cons, hx, cond_false]
      exact ih h

theorem typeEntry_insertRecord (g : List (String × List String)) (r : TypedName)
    (t : String) :
    typeEntry (insertRecord g r) t =
      if t = r.type then some (r.type, insertName (namesAt g r.type) r.name)
      else typeEntry g t := by
  unfold insertRecord
  by_cases hany : (g.any fun p => p.1 == r.type) = true
  · rw [if_pos hany, typeEntry_map_insert]
    by_cases ht : t = r.type
    · rw [if_pos ht, if_pos ht, ht]
      have hsome : (typeEntry g r.type).isSome = true :=
        typeEntry_isSome_iff_mem_keys.mpr (any_keys_iff.mp hany)
      rcases Option.isSome_iff_exists.mp hsome with ⟨p, hp⟩
      have hfst : p.1 = r.type := typeEntry_eq_some_fst hp
      rw [hp]
      unfold namesAt
      rw [hp]
      simp [hfst]
    · rw [if_neg ht, if_neg ht]
  · rw [if_neg hany]
    have hnone : typeEntry g r.type = none := by
      unfold typeEntry
      apply find?_eq_none_of_any_eq_false
      rw [Bool.not_eq_true] at hany
      exact hany
    by_cases ht : t = r.type
    · rw [if_pos ht, ht]
      have hin : insertName (namesAt g r.type) r.name = [r.name] := by
        unfold namesAt
        rw [hnone]
        simp [insertName]
      rw [hin]
      unfold typeEntry at hnone ⊢
      rw [find?_append_right_none _ hnone]
      simp [List.find?_cons]
    · rw [if_neg ht]
      unfold typeEntry
      rcases he : List.find? (fun p => p.1 == t) g with _ | p
      · rw [find?_append_right_none _ he, he]
        have hne : (r.type == t) = false := by
          simp only [beq_eq_false_iff_ne, ne_eq]
          exact fun hh => ht hh.symm
        simp [List.find?_cons, hne]
      · rw [he]
        exact find?_append_left _ he

theorem namesAt_insertRecord (g : List (String × List String)) (r : TypedName)
    (t : String) :
    namesAt (insertRecord g r) t =
      if t = r.type then insertName (namesAt g r.type) r.name else namesAt g t := by
  unfold namesAt
  rw [typeEntry_insertRecord]
  by_cases ht : t = r.type
  · rw [if_pos ht, if_pos ht]
    rfl
  · rw [if_neg ht, if_neg ht]

theorem mem_namesAt_foldl (l : List TypedName) (g : List (String × List String))
    (t n : String) :
    n ∈ namesAt (l.foldl insertRecord g) t ↔
      n ∈ namesAt g t ∨ TypedName.mk t n ∈ l := by
  induction l generalizing g with
  | nil => simp
  | cons r rs ih =>
    rw [List.foldl_cons, ih, namesAt_insertRecord]
    by_cases ht : t = r.type
    · rw [if_pos ht, mem_insertName]
      obtain ⟨rt, rn⟩ := r
      simp only at ht
      subst ht
      constructor
      · rintro ((hs | he) | hl)
        · exact Or.inl hs
        · exact Or.inr (List.mem_cons.mpr (Or.inl (by rw [he])))
        · exact Or.inr (List.mem_cons.mpr (Or.inr hl))
      · rintro (hs | hl)
        · exact Or.inl (Or.inl hs)
        · rcases List.mem_cons.mp hl with he | hm
          · injection he with h1 h2
            exact Or.inl (Or.inr h2)
          · exact Or.inr hm
    · rw [if_neg ht]
      constructor
      · rintro (hs | hl)
        · exact Or.inl hs
        · exact Or.inr (List.mem_cons.mpr (Or.inr hl))
      · rintro (hs | hl)
        · exact Or.inl hs
        · rcases List.mem_cons.mp hl with he | hm
          · cases he
            exact absurd rfl ht
          · exact Or.inr hm

theorem mem_namesAt_raw (l : List TypedName) (t n : String) :
    n ∈ namesAt (groupMetadataRaw l) t ↔ TypedName.mk t n ∈ l := by
  unfold groupMetadataRaw
  rw [mem_namesAt_foldl]
  simp [namesAt, typeEntry]

theorem nodup_namesAt_foldl (l : List TypedName) (g : List (String × List String))
    (t : String) (h : ∀ t', (namesAt g t').Nodup) :
    (namesAt (l.foldl insertRecord g) t).Nodup := by
  induction l generalizing g with
  | nil => exact h t
  | cons r rs ih =>
    rw [List.foldl_cons]
    apply ih
    intro t'
    rw [namesAt_insertRecord]
    split
    · exact nodup_insertName (h r.type)
    · exact h t'

theorem nodup_namesAt_raw (l : List TypedName) (t : String) :
    (namesAt (groupMetadataRaw l) t).Nodup :=
  nodup_namesAt_foldl l [] t fun t' => by simp [namesAt, typeEntry]

theorem keys_insertRecord (g : List (String × List String)) (r : TypedName) :
    (insertRecord g r).map Prod.fst =
      if (g.any fun p => p.1 == r.type) = true then g.map Prod.fst
      else g.map Prod.fst ++ [r.type] := by
  unfold insertRecord
  by_cases hany : (g.any fun p => p.1 == r.type) = true
  · rw [if_pos hany, if_pos hany, List.map_map]
    apply List.map_congr_left
    intro p hp
    by_cases hp1 : (p.1 == r.type) = true
    · simp [Function.comp, hp1]
    · simp [Function.comp, hp1]
  · rw [if_neg hany, if_neg hany]
    simp

theorem typeEntry_isSome_foldl (l : List TypedName) (g : List (String × List String))
    (t : String) :
    (typeEntry (l.foldl insertRecord g) t).isSome = true ↔
      (typeEntry g t).isSome = true ∨ ∃ r ∈ l, r.type = t := by
  induction l generalizing g with
  | nil => simp
  | cons r rs ih =>
    rw [List.foldl_cons, ih, typeEntry_insertRecord]
    by_cases ht : t = r.type
    · rw [if_pos ht]
      constructor
      · intro _
        exact Or.inr ⟨r, List.mem_cons.mpr (Or.inl rfl), ht.symm⟩
      · intro _
        exact Or.inl rfl
    · rw [if_neg ht]
      constructor
      · rintro (hs | ⟨r', hr', he⟩)
        · exact Or.inl hs
        · exact Or.inr ⟨r', List.mem_cons.mpr (Or.inr hr'), he⟩
      · rintro (hs | ⟨r', hr', he⟩)
        · exact Or.inl hs
        · rcases List.mem_cons.mp hr' with rfl | hm
          · exact absurd he.symm ht
          · exact Or.inr ⟨r', hm, he⟩

theorem typeEntry_isSome_raw (l : List TypedName) (t : String) :
    (typeEntry (groupMetadataRaw l) t).isSome = true ↔ ∃ r ∈ l, r.type = t := by
  unfold groupMetadataRaw
  rw [typeEntry_isSome_foldl]
  simp [typeEntry]

theorem nodup_keys_foldl (l : List TypedName) (g : List (String × List String))
    (h : (g.map Prod.fst).Nodup) :
    ((l.foldl insertRecord g).map Prod.fst).Nodup := by
  induction l generalizing g with
  | nil => exact h
  | cons r rs ih =>
    rw [List.foldl_cons]
    apply ih
    rw [keys_insertRecord]
    split
    · exact h
    · rename_i hany
      have hmem : r.type ∉ g.map Prod.fst := fun hm => hany (any_keys_iff.mpr hm)
      simp [List.nodup_append, h, hmem]

theorem nodup_keys_raw (l : List TypedName) :
    ((groupMetadataRaw l).map Prod.fst).Nodup :=
  nodup_keys_foldl l [] (by simp)

theorem find?_eq_of_mem_of_nodup_keys {g : List (String × List String)} {t : String}
    (hk : (g.map Prod.fst).Nodup) {p : String × List String}
    (hp : p ∈ g) (hpt : p.1 = t) :
    typeEntry g t = some p := by
  induction g with
  | nil => cases hp
  | cons x xs ih =>
    rcases List.mem_cons.mp hp with rfl | hmem
    · unfold typeEntry
      simp [List.find?_cons, beq_iff_eq.mpr hpt]
    · have hk' : x.1 ∉ xs.map Prod.fst ∧ (xs.map Prod.fst).Nodup := by
        simpa [List.nodup_cons] using hk
      have htx : (x.1 == t) = false := by
        simp only [beq_eq_false_iff_ne, ne_eq]
        intro he
        apply hk'.1
        rw [he, ← hpt]
        exact List.mem_map.mpr ⟨p, hmem, rfl⟩
      unfold typeEntry at ih ⊢
      simp only [List.find?_cons, htx, cond_false]
      exact ih hk'.2 hmem

theorem insertName_mem_of_mem {s : List String} {m : String} (h : m ∈ s) :
    insertName s m = s := insertName_of_mem h

theorem map_insert_id {g : List (String × List String)} {r : TypedName}
    (h : ∀ p ∈ g, (p.1 == r.type) = true → r.name ∈ p.2) :
    (g.map fun p => if p.1 == r.type then (p.1, insertName p.2 r.name) else p) = g := by
  induction g with
  | nil => rfl
  | cons x xs ih =>
    rw [List.map_cons, ih fun p hp => h p (List.mem_cons.mpr (Or.inr hp))]
    congr 1
    by_cases hx : (x.1 == r.type) = true
    · rw [if_pos hx, insertName_of_mem (h x (List.mem_cons.mpr (Or.inl rfl)) hx)]
    · rw [if_neg hx]

theorem insertRecord_of_present {g : List (String × List String)} {r : TypedName}
    (hk : (g.map Prod.fst).Nodup) {ns : List String}
    (hent : typeEntry g r.type = some (r.type, ns)) (hnm : r.name ∈ ns) :
    insertRecord g r = g := by
  unfold insertRecord
  have hany : (g.any fun p => p.1 == r.type) = true :=
    any_keys_iff.mpr (mem_keys_of_typeEntry hent)
  rw [if_pos hany]
  apply map_insert_id
  intro p hp hpt
  have hpt' : p.1 = r.type := by simpa using hpt
  have := find?_eq_of_mem_of_nodup_keys hk hp hpt'
  rw [hent] at this
  injection this with hpe
  rw [← hpe]
  exact hnm

theorem typeEntry_of_mem_namesAt {g : List (String × List String)} {t n : String}
    (h : n ∈ namesAt g t) : ∃ ns, typeEntry g t = some (t, ns) ∧ n ∈ ns := by
  unfold namesAt at h
  rcases he : typeEntry g t with _ | p
  · rw [he] at h
    cases h
  · rw [he] at h
    obtain ⟨p1, p2⟩ := p
    have hfst : p1 = t := typeEntry_eq_some_fst he
    refine ⟨p2, ?_, h⟩
    rw [hfst]

theorem foldl_insertRecord_id {l : List TypedName} {G : List (String × List String)}
    (hk : (G.map Prod.fst).Nodup)
    (h : ∀ r ∈ l, ∃ ns, typeEntry G r.type = some (r.type, ns) ∧ r.name ∈ ns) :
    l.foldl insertRecord G = G := by
  induction l with
  | nil => rfl
  | cons r rs ih =>
    rw [List.foldl_cons]
    rcases h r (List.mem_cons.mpr (Or.inl rfl)) with ⟨ns, hent, hnm⟩
    rw [insertRecord_of_present hk hent hnm]
    exact ih fun r' hr' => h r' (List.mem_cons.mpr (Or.inr hr'))

theorem groupMetadataRaw_append_self (l : List TypedName) :
    groupMetadataRaw (l ++ l) = groupMetadataRaw l := by
  show (l ++ l).foldl insertRecord [] = groupMetadataRaw l
  rw [List.foldl_append]
  show l.foldl insertRecord (groupMetadataRaw l) = groupMetadataRaw l
  apply foldl_insertRecord_id (nodup_keys_raw l)
  intro r hr
  have hn : r.name ∈ namesAt (groupMetadataRaw l) r.type := by
    rw [mem_namesAt_raw]
    obtain ⟨rt, rn⟩ := r
    exact hr
  exact typeEntry_of_mem_namesAt hn

theorem typeEntry_map_pair (f : List String → List String)
    (g : List (String × List String)) (t : String) :
    typeEntry (g.map fun p => (p.1, f p.2)) t =
      (typeEntry g t).map fun p => (p.1, f p.2) := by
  induction g with
  | nil => rfl
  | cons x xs ih =>
    cases hx : (x.1 == t) with
    | true =>
      unfold typeEntry
      simp [List.find?_cons, hx]
    | false =>
      unfold typeEntry at ih ⊢
      simp only [List.map_cons, List.find?_cons, hx, cond_false]
      exact ih

theorem typeEntry_groupMetadata (l : List TypedName) (t : String) :
    typeEntry (groupMetadata l) t =
      (typeEntry (groupMetadataRaw l) t).map fun p => (p.1, jsSortCI p.2) := by
  unfold groupMetadata
  exact typeEntry_map_pair jsSortCI (groupMetadataRaw l) t

theorem namesAt_groupMetadata (l : List TypedName) (t : String) :
    namesAt (groupMetadata l) t = jsSortCI (namesAt (groupMetadataRaw l) t) := by
  unfold namesAt
  rw [typeEntry_groupMetadata]
  rcases typeEntry (groupMetadataRaw l) t with _ | p
  · rfl
  · rfl

theorem map_sort_eq_of_aligned :
    ∀ g₁ g₂ : List (String × List String),
      g₁.map Prod.fst = g₂.map Prod.fst →
      (g₁.map Prod.fst).Nodup →
      (∀ t ns₁ ns₂, typeEntry g₁ t = some (t, ns₁) → typeEntry g₂ t = some (t, ns₂) →
        jsSortCI ns₁ = jsSortCI ns₂) →
      (g₁.map fun p => (p.1, jsSortCI p.2)) = g₂.map fun p => (p.1, jsSortCI p.2) := by
  intro g₁
  induction g₁ with
  | nil =>
    intro g₂ hk _ _
    cases g₂ with
    | nil => rfl
    | cons y ys => simp at hk
  | cons x xs ih =>
    intro g₂ hk hnd hpt
    cases g₂ with
    | nil => simp at hk
    | cons y ys =>
      obtain ⟨x1, x2⟩ := x
      obtain ⟨y1, y2⟩ := y
      simp only [List.map_cons, List.cons.injEq] at hk
      obtain ⟨hxy, hk'⟩ := hk
      subst hxy
      have hx1 : typeEntry ((x1, x2) :: xs) x1 = some (x1, x2) := by
        unfold typeEntry
        simp [List.find?_cons]
      have hy1 : typeEntry ((x1, y2) :: ys) x1 = some (x1, y2) := by
        unfold typeEntry
        simp [List.find?_cons]
      have hsort := hpt x1 x2 y2 hx1 hy1
      have hnd' : x1 ∉ xs.map Prod.fst ∧ (xs.map Prod.fst).Nodup := by
        simpa [List.nodup_cons] using hnd
      have hpt' : ∀ t ns₁ ns₂, typeEntry xs t = some (t, ns₁) →
          typeEntry ys t = some (t, ns₂) → jsSortCI ns₁ = jsSortCI ns₂ := by
        intro t ns₁ ns₂ h1 h2
        have htne : (x1 == t) = false := by
          simp only [beq_eq_false_iff_ne, ne_eq]
          intro he
          apply hnd'.1
          rw [he]
          exact mem_keys_of_typeEntry h1
        apply hpt t ns₁ ns₂
        · unfold typeEntry
          simp only [List.find?_cons, htne, cond_false]
          exact h1
        · unfold typeEntry
          simp only [List.find?_cons, htne, cond_false]
          exact h2
      simp only [List.map_cons, List.cons.injEq]
      exact ⟨by rw [hsort], ih ys hk' hnd'.2 hpt'⟩

/- ===================== lemmas: classification dispatch ===================== -/

theorem singleFind_eq_none {p : String} (h : matchesSingle p = false) :
    mapping.singleFiles.find? (fun r => jsIncludes p r.dir && jsEndsWith p r.ext)
      = none :=
  find?_eq_none_of_any_eq_false h

theorem bundleFind_eq_none {p : String} (h : matchesBundle p = false) :
    mapping.bundleTypes.find? (fun r => jsIncludes p r.dir) = none :=
  find?_eq_none_of_any_eq_false h

theorem objFind_eq_none {p : String} (h : matchesObj p = false) :
    mapping.objectChildren.find? (fun r => jsIncludes p r.dir && jsEndsWith p r.ext)
      = none :=
  find?_eq_none_of_any_eq_false h

theorem folderFind_eq_none {p : String} (h : matchesFolder p = false) :
    mapping.folderBased.find? (fun r => jsIncludes p r.dir && jsEndsWith p r.ext)
      = none :=
  find?_eq_none_of_any_eq_false h

theorem mapToMetadata_single {p : String} {r : SingleRule} {last : String}
    (hfind : mapping.singleFiles.find?
      (fun r => jsIncludes p r.dir && jsEndsWith p r.ext) = some r)
    (hlast : (jsSplit p "/").getLast? = some last) :
    mapToMetadata p = .ok (some ⟨r.type, some (jsReplaceJS last r.ext "")⟩) := by
  simp only [mapToMetadata, hfind, hlast]

theorem mapToMetadata_bundle {p : String} {r : BundleRule}
    (hs : matchesSingle p = false)
    (hfind : mapping.bundleTypes.find? (fun r => jsIncludes p r.dir) = some r) :
    mapToMetadata p = .ok (some ⟨r.type, jsGetAfterIdx (jsSplit p "/") r.bundle⟩) := by
  simp only [mapToMetadata, singleFind_eq_none hs, hfind]

theorem mapToMetadata_obj {p : String} {r : SingleRule}
    (hs : matchesSingle p = false) (hb : matchesBundle p = false)
    (hfind : mapping.objectChildren.find?
      (fun r => jsIncludes p r.dir && jsEndsWith p r.ext) = some r) :
    mapToMetadata p =
      match extractObjectMemberName p with
      | .ok s => .ok (some ⟨r.type, some s⟩)
      | .nullName => .ok (some ⟨r.type, none⟩)
      | .err => .typeError := by
  simp only [mapToMetadata, singleFind_eq_none hs, bundleFind_eq_none hb, hfind]

theorem mapToMetadata_folder {p : String} {r : SingleRule}
    (hs : matchesSingle p = false) (hb : matchesBundle p = false)
    (ho : matchesObj p = false)
    (hfind : mapping.folderBased.find?
      (fun r => jsIncludes p r.dir && jsEndsWith p r.ext) = some r) :
    mapToMetadata p =
      match extractFolderMemberName p with
      | some s => .ok (some ⟨r.type, some s⟩)
      | none => .typeError := by
  simp only [mapToMetadata, singleFind_eq_none hs, bundleFind_eq_none hb,
    objFind_eq_none ho, hfind]

theorem extractObjectMemberName_err_iff (p : String) :
    extractObjectMemberName p = .err ↔ objBadShape p = true := by
  unfold extractObjectMemberName objBadShape
  rcases h1 : (jsSplit p "/objects/")[1]? with _ | a
  · simp
  · by_cases ha : a = ""
    · subst ha
      simp
    · simp only [if_neg ha]
      rcases h0 : (jsSplit a "/")[0]? with _ | o
      · have hnil : jsSplit a "/" = [] := by
          rcases hn : jsSplit a "/" with _ | ⟨z, zs⟩
          · rfl
          · rw [hn] at h0
            simp at h0
        rw [hnil]
        simp [ha]
      · rcases h2 : (jsSplit a "/")[2]? with _ | f
        · simp [ha]
        · simp [ha]

theorem extractFolderMemberName_none_iff (p : String) :
    extractFolderMemberName p = none ↔ (jsSplit p "/").length ≤ 4 := by
  unfold extractFolderMemberName
  rcases hl : ((jsSplit p "/").drop 4).getLast? with _ | last
  · simp only [hl]
    have hl' := hl
    rw [List.getLast?_eq_none_iff, List.drop_eq_nil_iff] at hl'
    simp [hl']
  · simp only [hl]
    have hne : ((jsSplit p "/").drop 4) ≠ [] := by
      intro hnil
      rw [hnil] at hl
      cases hl
    have hlen : ¬(jsSplit p "/").length ≤ 4 := by
      intro hle
      exact hne (List.drop_eq_nil_iff.mpr hle)
    simp [hlen]

/- ===================== claims ===================== -/

/-- C7: aggregation is idempotent and order-independent.  Permuting the
record sequence yields the same type-to-name-set mapping (insertion order
of types may differ, which `sameMapping` abstracts from), and duplicating
the whole record list leaves the grouping literally unchanged, because a
duplicate (type, name) pair collapses into the existing set entry. -/
theorem groupMetadata_order_independent_and_idempotent :
    (∀ l₁ l₂ : List TypedName, l₁.Perm l₂ →
      sameMapping (groupMetadata l₁) (groupMetadata l₂)) ∧
    ∀ l : List TypedName, groupMetadata (l ++ l) = groupMetadata l := by
  constructor
  · intro l₁ l₂ hp t
    have hbool : ∀ a b : Bool, (a = true ↔ b = true) → a = b := by decide
    constructor
    · have h₁ : (typeEntry (groupMetadata l₁) t).isSome
          = (typeEntry (groupMetadataRaw l₁) t).isSome := by
        rw [typeEntry_groupMetadata]
        rcases typeEntry (groupMetadataRaw l₁) t with _ | q
        · rfl
        · rfl
      have h₂ : (typeEntry (groupMetadata l₂) t).isSome
          = (typeEntry (groupMetadataRaw l₂) t).isSome := by
        rw [typeEntry_groupMetadata]
        rcases typeEntry (groupMetadataRaw l₂) t with _ | q
        · rfl
        · rfl
      rw [h₁, h₂]
      apply hbool
      rw [typeEntry_isSome_raw, typeEntry_isSome_raw]
      constructor
      · rintro ⟨r, hr, he⟩
        exact ⟨r, hp.mem_iff.mp hr, he⟩
      · rintro ⟨r, hr, he⟩
        exact ⟨r, hp.mem_iff.mpr hr, he⟩
    · intro n
      rw [namesAt_groupMetadata, namesAt_groupMetadata]
      unfold jsSortCI
      rw [List.mem_insertionSort, List.mem_insertionSort,
        mem_namesAt_raw, mem_namesAt_raw]
      exact ⟨fun hm => hp.mem_iff.mp hm, fun hm => hp.mem_iff.mpr hm⟩
  · intro l
    unfold groupMetadata
    rw [groupMetadataRaw_append_self]

/-- Witness for C7: a concrete permutation and a concrete duplication. -/
theorem groupMetadata_order_independent_and_idempotent_witness :
    sameMapping (groupMetadata [⟨"ApexClass", "A"⟩, ⟨"Flow", "F"⟩])
      (groupMetadata [⟨"Flow", "F"⟩, ⟨"ApexClass", "A"⟩]) ∧
    groupMetadata ([⟨"ApexClass", "A"⟩] ++ [⟨"ApexClass", "A"⟩])
      = groupMetadata [⟨"ApexClass", "A"⟩] :=
  ⟨groupMetadata_order_independent_and_idempotent.1 _ _ (by decide),
   groupMetadata_order_independent_and_idempotent.2 _⟩

/-- C6 counterexample: two record lists with the same type-to-name-set
content (they are permutations of each other), differing only in the
insertion order of names, serialize to different bytes.  The two names
`Foo` and `fOO` lowercase identically; the comparator returns a tie and
the stable sort preserves the set's insertion order, which leaks into the
output. -/
theorem generatePackageXML_tie_order_dependent :
    [(⟨"ApexClass", "Foo"⟩ : TypedName), ⟨"ApexClass", "fOO"⟩].Perm
      [⟨"ApexClass", "fOO"⟩, ⟨"ApexClass", "Foo"⟩] ∧
    generatePackageXML (groupMetadata [⟨"ApexClass", "Foo"⟩, ⟨"ApexClass", "fOO"⟩])
      ≠ generatePackageXML (groupMetadata [⟨"ApexClass", "fOO"⟩, ⟨"ApexClass", "Foo"⟩]) := by
  constructor
  · decide
  · decide

/-- C6 (amended): serialization of `groupMetadata` output is byte-identical
for two record lists of the same content — permutations of each other that
produce the same type key order — provided no two distinct names of one
type are case-insensitively equal; the sort is only canonical up to such
ties, because the comparator compares lowercased strings and the stable
sort preserves set insertion order between tied names. -/
theorem generatePackageXML_canonical :
    ∀ l₁ l₂ : List TypedName, l₁.Perm l₂ →
      (groupMetadataRaw l₁).map Prod.fst = (groupMetadataRaw l₂).map Prod.fst →
      (∀ r₁ ∈ l₁, ∀ r₂ ∈ l₁, r₁.type = r₂.type →
        lowerChars r₁.name = lowerChars r₂.name → r₁.name = r₂.name) →
      generatePackageXML (groupMetadata l₁) = generatePackageXML (groupMetadata l₂) := by
  intro l₁ l₂ hp hkeys hinj
  have hgm : groupMetadata l₁ = groupMetadata l₂ := by
    unfold groupMetadata
    apply map_sort_eq_of_aligned _ _ hkeys (nodup_keys_raw l₁)
    intro t ns₁ ns₂ h1 h2
    have hm₁ : ∀ n, n ∈ ns₁ ↔ TypedName.mk t n ∈ l₁ := by
      intro n
      have hh := mem_namesAt_raw l₁ t n
      unfold namesAt at hh
      rw [h1] at hh
      exact hh
    have hm₂ : ∀ n, n ∈ ns₂ ↔ TypedName.mk t n ∈ l₂ := by
      intro n
      have hh := mem_namesAt_raw l₂ t n
      unfold namesAt at hh
      rw [h2] at hh
      exact hh
    have hnd₁ : ns₁.Nodup := by
      have hh := nodup_namesAt_raw l₁ t
      unfold namesAt at hh
      rw [h1] at hh
      exact hh
    have hnd₂ : ns₂.Nodup := by
      have hh := nodup_namesAt_raw l₂ t
      unfold namesAt at hh
      rw [h2] at hh
      exact hh
    have hperm : ns₁.Perm ns₂ := by
      apply (List.perm_ext_iff_of_nodup hnd₁ hnd₂).mpr
      intro n
      rw [hm₁, hm₂]
      exact hp.mem_iff
    apply jsSortCI_eq_of_perm hperm ?_ hnd₁
    intro a ha b hb hlow
    exact hinj _ ((hm₁ a).mp ha) _ ((hm₁ b).mp hb) rfl hlow
  rw [hgm]

/-- Witness for C6 (amended) at a concrete pair of record lists. -/
theorem generatePackageXML_canonical_witness :
    generatePackageXML (groupMetadata [⟨"ApexClass", "B"⟩, ⟨"ApexClass", "a"⟩])
      = generatePackageXML (groupMetadata [⟨"ApexClass", "a"⟩, ⟨"ApexClass", "B"⟩]) :=
  generatePackageXML_canonical _ _ (by decide) (by decide) (by decide)

/-- C1 counterexample: a run whose retrieval stage fails ends with
`process.exit(1)` raised inside `retrieveMetadata`; the `finally` block of
`updateChangeSet` never runs, and the manifest file is still on disk at
process exit, contradicting the claim that `deleteSources` has run after
every failed run. -/
theorem updateChangeSet_retrieval_failure_skips_cleanup :
    updateChangeSet "MyChangeSet" ⟨true, false, false, false, false⟩ ⟨false, true⟩
      = (.exited 1, ⟨false, true⟩) ∧ (⟨false, true⟩ : Disk).packageDiff = true := by
  decide

/-- C1 (amended): after every run of `updateChangeSet` with a non-empty
change-set name whose retrieval stage succeeds — whether the remaining
stages succeed or fail — the cleanup has run: neither the working
directory nor the manifest file exists.  A retrieval failure instead
terminates the process from inside `retrieveMetadata`, bypassing the
`finally` block, so cleanup is not guaranteed there. -/
theorem updateChangeSet_cleanup :
    ∀ (name : String) (sc : Scenario) (d : Disk), name ≠ "" →
      sc.retrieveFails = false →
      (updateChangeSet name sc d).2.retrievedSource = false ∧
      (updateChangeSet name sc d).2.packageDiff = false := by
  intro name sc d hname hret
  obtain ⟨rf, ef, pf, zf, df⟩ := sc
  simp only at hret
  subst hret
  cases ef <;> cases pf <;> cases zf <;> cases df <;>
    simp [updateChangeSet, deployStages, retrieveMetadata, deleteSources, hname]

/-- Witness for C1 (amended): a concrete run with a failing extraction
stage still ends with both transient artifacts removed. -/
theorem updateChangeSet_cleanup_witness :
    (updateChangeSet "MyCS" ⟨false, true, false, false, false⟩
      ⟨false, true⟩).2.retrievedSource = false ∧
    (updateChangeSet "MyCS" ⟨false, true, false, false, false⟩
      ⟨false, true⟩).2.packageDiff = false :=
  updateChangeSet_cleanup "MyCS" ⟨false, true, false, false, false⟩ ⟨false, true⟩
    (by decide) (by decide)

/-- C2 counterexample: the folder-based extractor drops a fixed prefix of
four path segments (`slice(4)`) instead of taking the path below the
marker directory.  With only two segments before the `dashboards` marker,
the sub-folder `F` is swallowed: the computed name is `X`, not the
claimed marker-relative path `F/X`. -/
theorem mapToMetadata_folder_prefix_dependent :
    mapToMetadata "a/b/dashboards/F/X.dashboard-meta.xml"
      = .ok (some ⟨"Dashboard", some "X"⟩) ∧ ("X" : String) ≠ "F/X" := by
  decide

/-- Every folder-based rule's extension matches the meta-suffix regex. -/
theorem folder_rule_ext_meta :
    ∀ r ∈ mapping.folderBased, metaXmlMatch r.ext.data = true := by
  decide

/-- Every object-child rule's extension matches the meta-suffix regex. -/
theorem obj_rule_ext_meta :
    ∀ r ∈ mapping.objectChildren, metaXmlMatch r.ext.data = true := by
  decide

/-- C2 (amended): for a path dispatched to a folder-based rule whose
marker is preceded by exactly three segments (the standard
`force-app/main/default` layout), the name is the full relative path below
the marker with the meta suffix stripped from the final segment, nesting
preserved.  In general the code drops the first four segments regardless
of where the marker sits, so the claim's prefix-independence fails. -/
theorem mapToMetadata_folder_names :
    ∀ (p : String) (r : SingleRule) (marker base : String)
      (pre sub : List String),
      matchesSingle p = false → matchesBundle p = false → matchesObj p = false →
      mapping.folderBased.find?
        (fun r => jsIncludes p r.dir && jsEndsWith p r.ext) = some r →
      r.dir = "/" ++ marker ++ "/" →
      jsSplit p "/" = pre ++ marker :: sub →
      pre.length = 3 →
      sub.getLast? = some (base ++ r.ext) →
      noMetaBefore base r.ext = true →
      mapToMetadata p =
        .ok (some ⟨r.type, some (String.intercalate "/" (sub.dropLast ++ [base]))⟩) := by
  intro p r marker base pre sub hs hb ho hfind hdir hsplit hlen hlast hnometa
  rw [mapToMetadata_folder hs hb ho hfind]
  have hmeta : metaXmlMatch r.ext.data = true :=
    folder_rule_ext_meta r (List.mem_of_find?_eq_some hfind)
  have hdrop : (jsSplit p "/").drop 4 = sub := by
    rw [hsplit]
    have hre : pre ++ marker :: sub = (pre ++ [marker]) ++ sub := by
      simp
    have hplen : (pre ++ [marker]).length = 4 := by
      simp [hlen]
    rw [hre, ← hplen, List.drop_left]
  unfold extractFolderMemberName
  simp only [hdrop, hlast]
  rw [stripMetaXml_append base r.ext hmeta hnometa]

/-- Witness for C2 (amended): the standard layout with one sub-folder. -/
theorem mapToMetadata_folder_names_witness :
    mapToMetadata "force-app/main/default/dashboards/Sub/D.dashboard-meta.xml" =
      .ok (some ⟨"Dashboard", some (String.intercalate "/"
        ((["Sub", "D.dashboard-meta.xml"] : List String).dropLast ++ ["D"]))⟩) :=
  mapToMetadata_folder_names
    "force-app/main/default/dashboards/Sub/D.dashboard-meta.xml"
    ⟨"/dashboards/", ".dashboard-meta.xml", "Dashboard"⟩ "dashboards" "D"
    ["force-app", "main", "default"] ["Sub", "D.dashboard-meta.xml"]
    (by decide) (by decide) (by decide) (by decide) (by decide) (by decide)
    (by decide) (by decide) (by decide)

/-- C3 counterexample: JavaScript `replace` with a string pattern removes
the FIRST occurrence of the extension, not the trailing one.  For a final
segment `A.clsB.cls` the claim demands the name `A.clsB` (trailing `.cls`
stripped); the code produces `AB.cls`. -/
theorem mapToMetadata_single_strips_first_occurrence :
    mapToMetadata "x/classes/A.clsB.cls"
      = .ok (some ⟨"ApexClass", some "AB.cls"⟩) ∧ ("AB.cls" : String) ≠ "A.clsB" := by
  decide

/-- C3 (amended): for a path dispatched to a single-file rule whose final
segment contains the rule's extension only as its trailing suffix (the
first occurrence is the trailing one), the name is the final path segment
with the trailing extension removed.  In general the code removes the
first occurrence of the extension substring, not the trailing one. -/
theorem mapToMetadata_single_names :
    ∀ (p : String) (r : SingleRule) (w : String),
      mapping.singleFiles.find?
        (fun r => jsIncludes p r.dir && jsEndsWith p r.ext) = some r →
      (jsSplit p "/").getLast? = some (w ++ r.ext) →
      firstIndexOfList r.ext.data (w.data ++ r.ext.data) = some w.data.length →
      mapToMetadata p = .ok (some ⟨r.type, some w⟩) := by
  intro p r w hfind hlast hocc
  rw [mapToMetadata_single hfind hlast, jsReplaceJS_strip w r.ext hocc]

/-- Witness for C3 (amended): a plain Apex class path. -/
theorem mapToMetadata_single_names_witness :
    mapToMetadata "x/classes/Foo.cls" = .ok (some ⟨"ApexClass", some "Foo"⟩) :=
  mapToMetadata_single_names "x/classes/Foo.cls"
    ⟨"/classes/", ".cls", "ApexClass"⟩ "Foo" (by decide) (by decide) (by decide)

/-- C4 counterexample: when `/objects/` occurs twice in the path, the code
splits on every occurrence and reads element 1 — the text BETWEEN the
first two occurrences — so for
`x/objects/A/objects/B/fields/F.field-meta.xml` (claim shape with
`<Obj> = B`, `<Field> = F`) the inner split has no element 2 and
`undefined.replace` throws, instead of returning the claimed record. -/
theorem mapToMetadata_object_child_double_marker :
    mapToMetadata "x/objects/A/objects/B/fields/F.field-meta.xml" = .typeError ∧
    MapResult.typeError ≠ .ok (some ⟨"CustomField", some "B.F"⟩) := by
  decide

/-- C4 (amended): for a path dispatched to an object-child rule in which
`/objects/` occurs exactly once and is followed by exactly
`<Obj>/<folder>/<file>`, the name is `<Obj>.<Field>` with the meta suffix
stripped from the file name.  Paths with a repeated `/objects/` marker
make the extractor throw instead. -/
theorem mapToMetadata_object_child_names :
    ∀ (p : String) (r : SingleRule)
      (pre afterObjects obj fdir fname field : String),
      matchesSingle p = false → matchesBundle p = false →
      mapping.objectChildren.find?
        (fun r => jsIncludes p r.dir && jsEndsWith p r.ext) = some r →
      jsSplit p "/objects/" = [pre, afterObjects] →
      jsSplit afterObjects "/" = [obj, fdir, fname] →
      fname = field ++ r.ext →
      noMetaBefore field r.ext = true →
      mapToMetadata p = .ok (some ⟨r.type, some (obj ++ "." ++ field)⟩) := by
  intro p r pre after obj fdir fname field hs hb hfind hsplit hparts hfname hnometa
  rw [mapToMetadata_obj hs hb hfind]
  have hmeta : metaXmlMatch r.ext.data = true :=
    obj_rule_ext_meta r (List.mem_of_find?_eq_some hfind)
  have hne : after ≠ "" := by
    intro he
    subst he
    have : jsSplit "" "/" = [""] := rfl
    rw [this] at hparts
    cases hparts
  have hext : extractObjectMemberName p = .ok (obj ++ "." ++ stripMetaXml fname) := by
    unfold extractObjectMemberName
    rw [hsplit]
    simp [hne, hparts]
  rw [hext, hfname, stripMetaXml_append field r.ext hmeta hnometa]

/-- Witness for C4 (amended): a standard custom-field path. -/
theorem mapToMetadata_object_child_names_witness :
    mapToMetadata "force-app/main/default/objects/Account/fields/X.field-meta.xml"
      = .ok (some ⟨"CustomField", some ("Account" ++ "." ++ "X")⟩) :=
  mapToMetadata_object_child_names
    "force-app/main/default/objects/Account/fields/X.field-meta.xml"
    ⟨"/fields/", ".field-meta.xml", "CustomField"⟩
    "force-app/main/default" "Account/fields/X.field-meta.xml"
    "Account" "fields" "X.field-meta.xml" "X"
    (by decide) (by decide) (by decide) (by decide) (by decide) (by decide)
    (by decide)

/-- C5 counterexample: the code takes the segment after the FIRST path
segment named `lwc`, not the segment after the `/lwc/` marker occurrence.
In `lwc/a/lwc/b` the only `/lwc/` substring occurrence is followed by
`b`, yet classification names the bundle `a`. -/
theorem mapToMetadata_bundle_first_segment :
    mapToMetadata "lwc/a/lwc/b"
      = .ok (some ⟨"LightningComponentBundle", some "a"⟩) ∧
    (some "a" : Option String) ≠ some "b" := by
  decide

/-- C5 (amended): for a path containing a bundle marker and matching no
single-file rule (single-file rules take precedence), the name is the
segment immediately after the FIRST path segment equal to the bundle
folder name; when that first segment is the marker occurrence — the
common case — this is the segment immediately following the marker, at
any depth, with no extension condition. -/
theorem mapToMetadata_bundle_names :
    ∀ (p : String) (r : BundleRule) (pre : List String) (y : String)
      (rest : List String),
      matchesSingle p = false →
      mapping.bundleTypes.find? (fun r => jsIncludes p r.dir) = some r →
      jsSplit p "/" = pre ++ r.bundle :: y :: rest →
      r.bundle ∉ pre →
      mapToMetadata p = .ok (some ⟨r.type, some y⟩) := by
  intro p r pre y rest hs hfind hsplit hpre
  rw [mapToMetadata_bundle hs hfind, hsplit]
  unfold jsGetAfterIdx
  have hcont : (pre ++ r.bundle :: y :: rest).contains r.bundle = true := by
    simp
  rw [if_pos hcont, findIdx_append_cons hpre, getElem?_append_cons_succ]

/-- Witness for C5 (amended): the spec's own example path. -/
theorem mapToMetadata_bundle_names_witness :
    mapToMetadata "force-app/main/default/lwc/myComponent/myComponent.js"
      = .ok (some ⟨"LightningComponentBundle", some "myComponent"⟩) :=
  mapToMetadata_bundle_names
    "force-app/main/default/lwc/myComponent/myComponent.js"
    ⟨"/lwc/", "lwc", "LightningComponentBundle"⟩
    ["force-app", "main", "default"] "myComponent" ["myComponent.js"]
    (by decide) (by decide) (by decide) (by decide)

/-- C8 counterexample: JavaScript `replace` expands replacement patterns
in its replacement argument, and the change-set label is interpolated into
that argument.  A label containing `$&` is replaced by the matched opening
tag itself, so the inserted element does not carry the caller-supplied
label and the output differs from the claimed byte-exact insertion. -/
theorem updatePackageXML_dollar_expansion :
    updatePackageXML "$&" ("A" ++ packageOpenTag ++ "B")
        = "A" ++ packageOpenTag ++ "\n    <fullName>" ++ packageOpenTag
          ++ "</fullName>" ++ "B" ∧
      "A" ++ packageOpenTag ++ "\n    <fullName>" ++ packageOpenTag
          ++ "</fullName>" ++ "B"
        ≠ "A" ++ packageOpenTag ++ "\n    <fullName>" ++ "$&" ++ "</fullName>" ++ "B" := by
  constructor
  · decide
  · decide

/-- C8 (amended): for a change-set label free of the `$` escape character,
`updatePackageXML` inserts the `fullName` element carrying the label
immediately after the first occurrence of the exact constant opening tag,
leaving every other byte (the prefix before the tag and the suffix after
it) unchanged; when the document does not contain the tag at all, the text
is returned byte-for-byte unchanged and no error is reported. -/
theorem updatePackageXML_patch :
    (∀ (name xml : String) (k : Nat), dollarFree name = true →
      firstIndexOfList packageOpenTag.data xml.data = some k →
      (updatePackageXML name xml).data =
        xml.data.take k ++ packageOpenTag.data ++
          ("\n    <fullName>" ++ name ++ "</fullName>").data ++
          xml.data.drop (k + packageOpenTag.data.length)) ∧
    ∀ (name xml : String), firstIndexOfList packageOpenTag.data xml.data = none →
      updatePackageXML name xml = xml := by
  constructor
  · intro name xml k hdollar hidx
    have hrepl : ∀ c ∈ (packageOpenTag ++ "\n    <fullName>" ++ name
        ++ "</fullName>").data, c ≠ dollarChar := by
      have htag : ∀ c ∈ packageOpenTag.data, c ≠ dollarChar := by decide
      have hlit1 : ∀ c ∈ ("\n    <fullName>" : String).data, c ≠ dollarChar := by
        decide
      have hlit2 : ∀ c ∈ ("</fullName>" : String).data, c ≠ dollarChar := by decide
      intro c hc
      simp only [String.data_append, List.mem_append] at hc
      rcases hc with ((hc | hc) | hc) | hc
      · exact htag c hc
      · exact hlit1 c hc
      · exact dollarFree_spec hdollar c hc
      · exact hlit2 c hc
    have hcompute : updatePackageXML name xml =
        ⟨xml.data.take k ++ substDollar packageOpenTag.data (xml.data.take k)
          (xml.data.drop (k + packageOpenTag.data.length))
          (packageOpenTag ++ "\n    <fullName>" ++ name ++ "</fullName>").data ++
          xml.data.drop (k + packageOpenTag.data.length)⟩ := by
      unfold updatePackageXML jsReplaceJS
      rw [hidx]
    rw [hcompute, substDollar_eq_self hrepl]
    simp [String.data_append, List.append_assoc]
  · intro name xml hnone
    unfold updatePackageXML jsReplaceJS
    rw [hnone]

/-- Witness for C8 (amended): a concrete patch and a concrete no-op. -/
theorem updatePackageXML_patch_witness :
    (updatePackageXML "MyCS" ("A" ++ packageOpenTag ++ "B")).data =
      ("A" ++ packageOpenTag ++ "B").data.take 1 ++ packageOpenTag.data ++
        ("\n    <fullName>" ++ "MyCS" ++ "</fullName>").data ++
        ("A" ++ packageOpenTag ++ "B").data.drop (1 + packageOpenTag.data.length) ∧
    updatePackageXML "MyCS" "no tag here" = "no tag here" :=
  ⟨updatePackageXML_patch.1 "MyCS" ("A" ++ packageOpenTag ++ "B") 1
    (by decide) (by decide),
   updatePackageXML_patch.2 "MyCS" "no tag here" (by decide)⟩

/-- C9: with an empty changed-file list the run prints the no-changes
message and exits with code 0; the classifier, aggregator and serializer
are never invoked and no manifest content is produced. -/
theorem generateDiffPackage_no_changes :
    generateDiffPackage [] =
      { exitCode := some 0, message := "No changes detected", manifest := none,
        pipelineInvoked := false } := by
  decide

/-- C10 counterexample: `mapToMetadata` is not total.  A folder-based
match with fewer than five path segments makes `target[-1].replace` throw,
and an object-child match whose `/objects/` split lacks the third segment
makes `undefined.replace` throw; both are modelled as `typeError`. -/
theorem mapToMetadata_not_total :
    mapToMetadata "a/dashboards/X.dashboard-meta.xml" = .typeError ∧
    mapToMetadata "a/fields/objects/F.field-meta.xml" = .typeError := by
  decide

/-- C10 (amended): `mapToMetadata` throws exactly on two malformed shapes:
a path dispatched to an object-child rule whose `/objects/` split has a
non-empty element 1 but no third `/`-segment inside it, and a path
dispatched to a folder-based rule with at most four `/`-segments.  On
every other input — including the static-resource branch and object-child
paths with no `/objects/` at all, which yield a null name — it returns a
record or null without error. -/
theorem mapToMetadata_typeError_iff :
    ∀ p : String,
      mapToMetadata p = .typeError ↔
        (matchesSingle p = false ∧ matchesBundle p = false ∧ matchesObj p = true ∧
          objBadShape p = true) ∨
        (matchesSingle p = false ∧ matchesBundle p = false ∧ matchesObj p = false ∧
          matchesFolder p = true ∧ (jsSplit p "/").length ≤ 4) := by
  intro p
  by_cases hs : matchesSingle p = true
  · rcases Option.isSome_iff_exists.mp
      (List.find?_isSome.mpr (List.any_eq_true.mp hs)) with ⟨r, hr⟩
    rcases hl : (jsSplit p "/").getLast? with _ | last
    · exact absurd (List.getLast?_eq_none_iff.mp hl) (jsSplit_slash_ne_nil p)
    · rw [mapToMetadata_single hr hl]
      simp [hs]
  · have hs' : matchesSingle p = false := by rwa [Bool.not_eq_true] at hs
    by_cases hb : matchesBundle p = true
    · rcases Option.isSome_iff_exists.mp
        (List.find?_isSome.mpr (List.any_eq_true.mp hb)) with ⟨r, hr⟩
      rw [mapToMetadata_bundle hs' hr]
      simp [hb]
    · have hb' : matchesBundle p = false := by rwa [Bool.not_eq_true] at hb
      by_cases ho : matchesObj p = true
      · rcases Option.isSome_iff_exists.mp
          (List.find?_isSome.mpr (List.any_eq_true.mp ho)) with ⟨r, hr⟩
        rw [mapToMetadata_obj hs' hb' hr]
        rcases hext : extractObjectMemberName p with s | _ | _
        · have hbad : ¬objBadShape p = true := fun hb2 => by
            have hh := (extractObjectMemberName_err_iff p).mpr hb2
            rw [hext] at hh
            cases hh
          simp [hs', hb', ho, hbad]
        · have hbad : ¬objBadShape p = true := fun hb2 => by
            have hh := (extractObjectMemberName_err_iff p).mpr hb2
            rw [hext] at hh
            cases hh
          simp [hs', hb', ho, hbad]
        · have hbad : objBadShape p = true :=
            (extractObjectMemberName_err_iff p).mp hext
          simp [hs', hb', ho, hbad]
      · have ho' : matchesObj p = false := by rwa [Bool.not_eq_true] at ho
        by_cases hf : matchesFolder p = true
        · rcases Option.isSome_iff_exists.mp
            (List.find?_isSome.mpr (List.any_eq_true.mp hf)) with ⟨r, hr⟩
          rw [mapToMetadata_folder hs' hb' ho' hr]
          rcases hext : extractFolderMemberName p with _ | s
          · have hlen := (extractFolderMemberName_none_iff p).mp hext
            simp [hs', hb', ho', hf, hlen]
          · have hlen : ¬(jsSplit p "/").length ≤ 4 := fun hle => by
              have hh := (extractFolderMemberName_none_iff p).mpr hle
              rw [hext] at hh
              cases hh
            simp [hs', hb', ho', hlen]
        · have hf' : matchesFolder p = false := by rwa [Bool.not_eq_true] at hf
          by_cases hst : jsIncludes p "/staticresources/" = true
          · rcases Option.isSome_iff_exists.mp (static_name_isSome hst)
              with ⟨seg, hseg⟩
            have hres : mapToMetadata p
                = .ok (some ⟨"StaticResource", (jsSplit seg ".")[0]?⟩) := by
              simp only [mapToMetadata, singleFind_eq_none hs',
                bundleFind_eq_none hb', objFind_eq_none ho',
                folderFind_eq_none hf', hst, if_true, hseg]
            rw [hres]
            simp [ho', hf']
          · have hst' : jsIncludes p "/staticresources/" = false := by
              rwa [Bool.not_eq_true] at hst
            have hres : mapToMetadata p = .ok none := by
              simp only [mapToMetadata, singleFind_eq_none hs',
                bundleFind_eq_none hb', objFind_eq_none ho',
                folderFind_eq_none hf', hst', Bool.false_eq_true, if_false]
            rw [hres]
            simp [ho', hf']

-- TEMP tests (to be removed)